import Mathlib

/-!
Verification development for the hypha-spike-persistence-1 repository.

The JavaScript sources are embedded shallowly:
* always-on/index.js : settings handling, the `/sign-up/:readKey` websocket
  route and the `/.well-known/dat` middleware;
* browser/index.js   : the ephemeral-message handler (seen-set
  deduplication), the authorisation-request broadcast and the
  Dat-DNS client;
* lib/crypto.js      : `encrypt` / `decrypt` over libsodium's secretbox
  (the sodium primitives themselves are external and appear as
  parameters together with their documented contracts);
* lib/utils.js       : `jsonParseWithBufferSupport`;
* the `@hypha/secure-ephemeral-messaging-channel` package is external to
  the repository; its receive path is modelled from the specification.

JavaScript `Buffer`s are lists of byte values (`List Nat`); the JavaScript
distinction between `null` and a string value is kept explicit where the
code tests for it.
-/

namespace Hypha

/-- A JavaScript value that is either `null` or a string, as stored in the
always-on node's settings `readKey` field (`always-on/index.js`). -/
inductive StrOrNull where
  | null
  | str (s : String)
deriving DecidableEq, Repr

/-- Settings record of the always-on node (`always-on/index.js`): only the
`readKey` field exists. -/
structure AOSettings where
  readKey : StrOrNull
deriving DecidableEq, Repr

/-- `defaultSettings` from always-on/index.js: `{ readKey: '' }`. -/
def defaultSettings : AOSettings := { readKey := .str "" }

/-- Outcome of a websocket request to `/sign-up/:readKey`. -/
inductive SignUpOutcome where
  | rejected (errorMessage : String)
  | replicating (readKey : String)
deriving DecidableEq, Repr

/-- The `/sign-up/:readKey` websocket route (always-on/index.js, lines
284–302): if `settings.readKey !== null` the socket receives
`{error: 'Hypha already exists.'}` and is closed with no replication;
otherwise replication starts with the supplied read key and the read key
is stored in settings (persisted). -/
def signUp (settings : AOSettings) (readKey : String) : AOSettings × SignUpOutcome :=
  if settings.readKey ≠ .null then
    (settings, .rejected "Hypha already exists.")
  else
    ({ readKey := .str readKey }, .replicating readKey)

/-- A node counts as provisioned once a read key has been stored in its
settings, i.e. the `readKey` field no longer holds the default value. -/
def provisioned (settings : AOSettings) : Bool :=
  settings.readKey ≠ defaultSettings.readKey

/-- The `/.well-known/dat` middleware (always-on/index.js, lines 116–121):
replies with `settings.readKey` as `text/plain` (an empty body when the
field is `null`, since `response.end(null)` sends no chunk). -/
def wellKnownDatResponse (settings : AOSettings) : String :=
  match settings.readKey with
  | .null => ""
  | .str v => v

/-- `getReadKeyFromDatDNS` (browser/index.js, lines 297–305): returns
`null` when the fetched response is the empty string, and the response
itself otherwise. -/
def getReadKeyFromDatDNS (response : String) : Option String :=
  if response = "" then none else some response

/-- A JavaScript value as handled by `JSON.stringify` / `JSON.parse` in the
repository: JSON scalars, arrays, objects (ordered key/value lists, as JS
object literals are), and Node `Buffer`s (lists of byte values). -/
inductive JsVal where
  | null
  | bool (b : Bool)
  | num (n : Int)
  | str (s : String)
  | arr (xs : List JsVal)
  | obj (kvs : List (String × JsVal))
  | buffer (bytes : List Nat)

/-- JSON string escaping for one character (backslash and quote). -/
def jsonEscapeChar (c : Char) : String :=
  if c = '\\' then "\\\\" else if c = '"' then "\\\"" else String.singleton c

/-- JSON string escaping. -/
def jsonEscape (s : String) : String :=
  String.join (s.data.map jsonEscapeChar)

/-- A JSON string literal: the escaped text in double quotes. -/
def quoteString (s : String) : String :=
  "\"" ++ jsonEscape s ++ "\""

mutual

/-- Model of `JSON.stringify` on a `JsVal`.  A `Buffer` serialises through
`Buffer.prototype.toJSON` as `\x7b"type":"Buffer","data":[...]\x7d`. -/
def jsonStringify : JsVal → String
  | .null => "null"
  | .bool true => "true"
  | .bool false => "false"
  | .num n => toString n
  | .str s => quoteString s
  | .arr xs => "[" ++ jsonStringifyElems xs ++ "]"
  | .obj kvs => "\x7b" ++ jsonStringifyMembers kvs ++ "\x7d"
  | .buffer bs =>
      "\x7b\"type\":\"Buffer\",\"data\":[" ++
        String.intercalate "," (bs.map toString) ++ "]\x7d"

/-- Comma-separated serialisation of array elements. -/
def jsonStringifyElems : List JsVal → String
  | [] => ""
  | [x] => jsonStringify x
  | x :: y :: rest => jsonStringify x ++ "," ++ jsonStringifyElems (y :: rest)

/-- Comma-separated serialisation of object members. -/
def jsonStringifyMembers : List (String × JsVal) → String
  | [] => ""
  | [(k, v)] => quoteString k ++ ":" ++ jsonStringify v
  | (k, v) :: m :: rest =>
      quoteString k ++ ":" ++ jsonStringify v ++ "," ++ jsonStringifyMembers (m :: rest)

end

/-- Property lookup on a JavaScript object literal (key/value list). -/
def lookupKey : List (String × JsVal) → String → Option JsVal
  | [], _ => none
  | (k', v) :: rest, k => if k' = k then some v else lookupKey rest k

/-- Coercion `Buffer.from` applies to one array element: numbers are taken
modulo 256 (as unsigned bytes), `true` coerces to 1, everything else that
does not convert to a number contributes byte 0. -/
def coerceByte : JsVal → Nat
  | .num n => (n % 256).toNat
  | .bool true => 1
  | _ => 0

/-- The shape test of the reviver in `jsonParseWithBufferSupport`
(lib/utils.js, lines 9–20): a non-null object value whose `type` property
is the string `'Buffer'` and whose `data` property is an array. -/
def isBufferShape : JsVal → Bool
  | .obj kvs =>
      (match lookupKey kvs "type" with
       | some (.str "Buffer") => true
       | _ => false) &&
      (match lookupKey kvs "data" with
       | some (.arr _) => true
       | _ => false)
  | _ => false

/-- The reviver function of `jsonParseWithBufferSupport` applied to one
value (children already revived): a value of Buffer shape becomes
`Buffer.from(v.data)`; every other value is returned unchanged. -/
def reviveNode (v : JsVal) : JsVal :=
  match v with
  | .obj kvs =>
      match lookupKey kvs "type", lookupKey kvs "data" with
      | some (.str "Buffer"), some (.arr ds) => .buffer (ds.map coerceByte)
      | _, _ => v
  | _ => v

mutual

/-- `jsonParseWithBufferSupport` (lib/utils.js) on an already-parsed value:
`JSON.parse` applies the reviver bottom-up, children before their parent.
On leaves and arrays the reviver's object test fails, so only objects are
inspected. -/
def revive : JsVal → JsVal
  | .arr xs => .arr (reviveList xs)
  | .obj kvs => reviveNode (.obj (reviveMembers kvs))
  | v => v

/-- Reviver applied to the elements of an array. -/
def reviveList : List JsVal → List JsVal
  | [] => []
  | x :: rest => revive x :: reviveList rest

/-- Reviver applied to the values of an object. -/
def reviveMembers : List (String × JsVal) → List (String × JsVal)
  | [] => []
  | (k, v) :: rest => (k, revive v) :: reviveMembers rest

end

mutual

/-- The value produced by `JSON.stringify` followed by plain `JSON.parse`
(identity reviver): the structure is reproduced, except that every
`Buffer` appears as its `Buffer.prototype.toJSON` form
`\x7b type: 'Buffer', data: [...] \x7d`. -/
def jsonForm : JsVal → JsVal
  | .null => .null
  | .bool b => .bool b
  | .num n => .num n
  | .str s => .str s
  | .arr xs => .arr (jsonFormList xs)
  | .obj kvs => .obj (jsonFormMembers kvs)
  | .buffer bs =>
      .obj [("type", .str "Buffer"),
            ("data", .arr (bs.map (fun b => JsVal.num (b : Int))))]

/-- `jsonForm` on array elements. -/
def jsonFormList : List JsVal → List JsVal
  | [] => []
  | x :: rest => jsonForm x :: jsonFormList rest

/-- `jsonForm` on object members. -/
def jsonFormMembers : List (String × JsVal) → List (String × JsVal)
  | [] => []
  | (k, v) :: rest => (k, jsonForm v) :: jsonFormMembers rest

end

mutual

/-- A value corresponding to a real JavaScript value on which the Buffer
round trip is exact: `Buffer`s hold bytes (< 256), and no plain object
literal accidentally has the serialised-Buffer shape (such a decoy would
deliberately be turned into a `Buffer` by the reviver). -/
def wellFormedJs : JsVal → Bool
  | .null | .bool _ | .num _ | .str _ => true
  | .buffer bs => bs.all (fun b => decide (b < 256))
  | .arr xs => wellFormedJsList xs
  | .obj kvs => !isBufferShape (.obj kvs) && wellFormedJsMembers kvs

/-- `wellFormedJs` on array elements. -/
def wellFormedJsList : List JsVal → Bool
  | [] => true
  | x :: rest => wellFormedJs x && wellFormedJsList rest

/-- `wellFormedJs` on object members. -/
def wellFormedJsMembers : List (String × JsVal) → Bool
  | [] => true
  | (_, v) :: rest => wellFormedJs v && wellFormedJsMembers rest

end

mutual

/-- A plain `JSON.parse` output (no `Buffer` anywhere — parse never makes
one) in which no value has the serialised-Buffer shape. -/
def pureJsonNoBufferShape : JsVal → Bool
  | .null | .bool _ | .num _ | .str _ => true
  | .buffer _ => false
  | .arr xs => pureJsonNoBufferShapeList xs
  | .obj kvs => !isBufferShape (.obj kvs) && pureJsonNoBufferShapeMembers kvs

/-- `pureJsonNoBufferShape` on array elements. -/
def pureJsonNoBufferShapeList : List JsVal → Bool
  | [] => true
  | x :: rest => pureJsonNoBufferShape x && pureJsonNoBufferShapeList rest

/-- `pureJsonNoBufferShape` on object members. -/
def pureJsonNoBufferShapeMembers : List (String × JsVal) → Bool
  | [] => true
  | (_, v) :: rest => pureJsonNoBufferShape v && pureJsonNoBufferShapeMembers rest

end

/-- Structural induction principle for `JsVal` (the nested lists prevent
use of the automatically generated recursor). -/
def jsValInduct (motive : JsVal → Prop)
    (hnull : motive .null)
    (hbool : ∀ b, motive (.bool b))
    (hnum : ∀ n, motive (.num n))
    (hstr : ∀ s, motive (.str s))
    (harr : ∀ xs, (∀ x ∈ xs, motive x) → motive (.arr xs))
    (hobj : ∀ kvs, (∀ kv ∈ kvs, motive (Prod.snd kv)) → motive (.obj kvs))
    (hbuf : ∀ bs, motive (.buffer bs)) : ∀ v, motive v
  | .null => hnull
  | .bool b => hbool b
  | .num n => hnum n
  | .str s => hstr s
  | .arr xs => harr xs (fun x hx =>
      jsValInduct motive hnull hbool hnum hstr harr hobj hbuf x)
  | .obj kvs => hobj kvs (fun kv hkv =>
      jsValInduct motive hnull hbool hnum hstr harr hobj hbuf kv.2)
  | .buffer bs => hbuf bs
termination_by v => sizeOf v
decreasing_by
  · have h1 := List.sizeOf_lt_of_mem hx
    simp only [JsVal.arr.sizeOf_spec]
    omega
  · have h1 := List.sizeOf_lt_of_mem hkv
    have h2 : sizeOf kv.2 < sizeOf kv := by
      obtain ⟨a, b⟩ := kv
      simp
    simp only [JsVal.obj.sizeOf_spec]
    omega

/-! ## lib/crypto.js : `encrypt` / `decrypt`

The libsodium primitives (`crypto_secretbox_easy`,
`crypto_secretbox_open_easy`, `randombytes_buf`) are external native code;
they appear as function parameters, and the theorems assume exactly their
documented contracts (output lengths; decryption inverts encryption under
the same key and nonce).  Buffers are lists of byte values; the UTF-8
codec is modelled on code points. -/

/-- `sodium.crypto_secretbox_MACBYTES`. -/
def crypto_secretbox_MACBYTES : Nat := 16

/-- `sodium.crypto_secretbox_NONCEBYTES`. -/
def crypto_secretbox_NONCEBYTES : Nat := 24

/-- `sodium.crypto_secretbox_KEYBYTES`. -/
def crypto_secretbox_KEYBYTES : Nat := 32

/-- Value of one hexadecimal digit, `none` for a non-hex character. -/
def hexDigitVal (c : Char) : Option Nat :=
  if '0' ≤ c ∧ c ≤ '9' then some (c.toNat - 48)
  else if 'a' ≤ c ∧ c ≤ 'f' then some (c.toNat - 87)
  else if 'A' ≤ c ∧ c ≤ 'F' then some (c.toNat - 55)
  else none

/-- Hex decoding of character pairs; decoding stops at the first invalid
pair or a trailing odd character, as `Buffer.from(string, 'hex')` does. -/
def hexPairsToBytes : List Char → List Nat
  | c1 :: c2 :: rest =>
      match hexDigitVal c1, hexDigitVal c2 with
      | some hi, some lo => (16 * hi + lo) :: hexPairsToBytes rest
      | _, _ => []
  | _ => []

/-- `Buffer.from(s, 'hex')`. -/
def hexToBytes (s : String) : List Nat :=
  hexPairsToBytes s.data

/-- `Buffer.from(s, 'utf-8')`, modelled on code points. -/
def utf8Encode (s : String) : List Nat :=
  s.data.map Char.toNat

/-- `buffer.toString('utf-8')`, the inverse of `utf8Encode`. -/
def utf8Decode (bs : List Nat) : String :=
  String.mk (bs.map Char.ofNat)

/-- The `message` argument of `encrypt`: a string, or any other value
(which `encrypt` serialises with `JSON.stringify`). -/
inductive JsMessage where
  | str (s : String)
  | val (v : JsVal)

/-- The `secretKey` argument of `encrypt` / `decrypt`: a Buffer, or a hex
string that the functions convert with `Buffer.from(key, 'hex')`. -/
inductive KeyInput where
  | buf (bytes : List Nat)
  | hex (s : String)

/-- The string actually encrypted: the message itself when it is a
string, `JSON.stringify` of it otherwise (lib/crypto.js, lines 14–16). -/
def messageString : JsMessage → String
  | .str s => s
  | .val v => jsonStringify v

/-- Key normalisation of lib/crypto.js (lines 19–21 and 46–48): a hex
string is converted to a Buffer, a Buffer is used as is. -/
def normalizeKey : KeyInput → List Nat
  | .buf bytes => bytes
  | .hex s => hexToBytes s

/-- The object returned by `encrypt`: the nonce used and the ciphertext. -/
structure EncryptResult where
  nonce : List Nat
  ciphertext : List Nat
deriving DecidableEq, Repr

/-- `encrypt` (lib/crypto.js, lines 11–35): serialises a non-string
message as JSON, normalises the key, UTF-8–encodes the message, draws a
fresh nonce of `crypto_secretbox_NONCEBYTES` bytes with `randombytes_buf`
and seals with `crypto_secretbox_easy`.  The two sodium primitives are
the parameters `randomBytes` and `secretbox`. -/
def encrypt (secretbox : List Nat → List Nat → List Nat → List Nat)
    (randomBytes : Nat → List Nat)
    (message : JsMessage) (secretKey : KeyInput) : EncryptResult :=
  let msg := messageString message
  let key := normalizeKey secretKey
  let m := utf8Encode msg
  let nonce := randomBytes crypto_secretbox_NONCEBYTES
  { nonce := nonce, ciphertext := secretbox m nonce key }

/-- `decrypt` (lib/crypto.js, lines 39–59): throws on a wrong-length
nonce (modelled as `Except.error`), normalises the key, opens the box
with `crypto_secretbox_open_easy` (the parameter `secretboxOpen`) into a
buffer of `ciphertext.length - crypto_secretbox_MACBYTES` bytes and
returns the UTF-8 string. -/
def decrypt (secretboxOpen : List Nat → List Nat → List Nat → List Nat)
    (ciphertext : List Nat) (secretKey : KeyInput) (nonce : List Nat) :
    Except String String :=
  if nonce.length ≠ crypto_secretbox_NONCEBYTES then
    .error "Incorrect nonce length."
  else
    let key := normalizeKey secretKey
    let plaintext := secretboxOpen ciphertext nonce key
    .ok (utf8Decode plaintext)

/-! ## browser/index.js : the ephemeral-message handler -/

/-- The ephemeral request broadcast by `view.on('requestAuthorisation')`
(browser/index.js, lines 710–715): node name, timestamp, action and the
local writer's read key (all serialised as strings). -/
structure EphemeralRequest where
  nodeName : String
  timestamp : String
  action : String
  readKey : String
deriving DecidableEq, Repr

/-- The JavaScript object literal of the request, in field order. -/
def requestToJsVal (r : EphemeralRequest) : JsVal :=
  .obj [("nodeName", .str r.nodeName), ("timestamp", .str r.timestamp),
        ("action", .str r.action), ("readKey", .str r.readKey)]

/-- `createMessageHash` (browser/index.js, lines 264–266): SHA-256 of
`JSON.stringify(message)` in hex.  The digest itself is the external
parameter `sha256hex`; only that it is a function of the serialised
message matters. -/
def createMessageHash (sha256hex : String → String) (m : EphemeralRequest) : String :=
  sha256hex (jsonStringify (requestToJsVal m))

/-- Browser-node state touched by the ephemeral-message logic: the
in-memory seen-set `ephemeralMessageHashes` (browser/index.js, line 86)
and `model.lastRequest`. -/
structure BrowserNode where
  ephemeralMessageHashes : List String
  lastRequest : Option EphemeralRequest
deriving DecidableEq, Repr

/-- Observable application-level effects of the handler. -/
inductive UiEvent where
  | showAuthorisationRequest (nodeName : String)
deriving DecidableEq, Repr

/-- `ephemeralMessageHashes[messageHash] = true`: set-semantics insertion
into the seen-set. -/
def insertHash (h : String) (seen : List String) : List String :=
  if h ∈ seen then seen else h :: seen

/-- The post-deduplication part of the `message` handler (browser/index.js,
lines 466–488): an `authorise` request is surfaced with
`view.showAuthorisationRequest` (and recorded in `model.lastRequest`) only
when `db.authorized(db.local.key, …)` reported `true`; an error
(`authorizedResult = none`) or `false` ignores the request; any other
action is ignored as an unknown request. -/
def handleRequest (authorizedResult : Option Bool) (s : BrowserNode)
    (request : EphemeralRequest) : BrowserNode × List UiEvent :=
  if request.action = "authorise" then
    match authorizedResult with
    | none => (s, [])
    | some true =>
        ({ s with lastRequest := some request },
         [.showAuthorisationRequest request.nodeName])
    | some false => (s, [])
  else (s, [])

/-- The `secureEphemeralMessagingChannel.on('message')` handler
(browser/index.js, lines 444–489): computes the content hash of the
decrypted message, silently drops it when the hash is already in
`ephemeralMessageHashes`, otherwise inserts the hash first and only then
acts on the request. -/
def onEphemeralMessage (sha256hex : String → String) (authorizedResult : Option Bool)
    (s : BrowserNode) (m : EphemeralRequest) : BrowserNode × List UiEvent :=
  let messageHash := createMessageHash sha256hex m
  if messageHash ∈ s.ephemeralMessageHashes then (s, [])
  else
    handleRequest authorizedResult
      { s with ephemeralMessageHashes := insertHash messageHash s.ephemeralMessageHashes }
      m

/-- The `view.on('requestAuthorisation')` handler (browser/index.js,
lines 707–722): builds the request, broadcasts it over the channel
(the returned message) and records its own content hash in the seen-set
so an echo of the broadcast is dropped. -/
def requestAuthorisation (sha256hex : String → String) (s : BrowserNode)
    (nodeName timestamp localReadKey : String) : BrowserNode × EphemeralRequest :=
  let message : EphemeralRequest :=
    { nodeName := nodeName, timestamp := timestamp,
      action := "authorise", readKey := localReadKey }
  let messageHash := createMessageHash sha256hex message
  ({ s with ephemeralMessageHashes := insertHash messageHash s.ephemeralMessageHashes },
   message)

/-- Sequential delivery of several ephemeral messages to the handler,
accumulating the emitted events. -/
def receiveAll (sha256hex : String → String) (authorizedResult : Option Bool) :
    BrowserNode → List EphemeralRequest → BrowserNode × List UiEvent
  | s, [] => (s, [])
  | s, m :: rest =>
      let r1 := onEphemeralMessage sha256hex authorizedResult s m
      let r2 := receiveAll sha256hex authorizedResult r1.1 rest
      (r2.1, r1.2 ++ r2.2)

/-- Every operation of the browser node that touches the seen-set. -/
inductive BrowserOp where
  | receiveMessage (authorizedResult : Option Bool) (m : EphemeralRequest)
  | requestAuth (nodeName timestamp localReadKey : String)
deriving DecidableEq, Repr

/-- Effect of one browser-node operation on the state. -/
def applyBrowserOp (sha256hex : String → String) (s : BrowserNode) :
    BrowserOp → BrowserNode
  | .receiveMessage authorizedResult m =>
      (onEphemeralMessage sha256hex authorizedResult s m).1
  | .requestAuth nodeName timestamp localReadKey =>
      (requestAuthorisation sha256hex s nodeName timestamp localReadKey).1

/-! ## The secure ephemeral messaging channel (receive path)

The `@hypha/secure-ephemeral-messaging-channel` package is a dependency,
not part of this repository; only its construction sites
(always-on/index.js, lines 71–76, with no key; browser/index.js, lines
119 and 152, with the symmetric key) and its event listeners are in the
sources.  Its receive path is therefore modelled from the specification
(§4.5): decrypt-or-`BadMessage` and content-hash deduplication for a
keyed node, raw re-broadcast to all other live sessions for a key-less
relay. -/

/-- Modelled from the spec: the channel state of
`SecureEphemeralMessagingChannel` — the optional pre-shared symmetric
key (absent on a relay constructed with no argument) and the per-process
in-memory seen-set of content hashes. -/
structure SEMChannel where
  secretKey : Option (List Nat)
  seen : List String
deriving DecidableEq, Repr

/-- Events a channel can emit towards the application. -/
inductive ChannelEvent where
  | message (plaintext : String)
  | receivedBadMessage
deriving DecidableEq, Repr

/-- Result of receiving one ciphertext frame: the new channel state, the
events fired, and the raw frames forwarded to other sessions (session
identifier paired with the ciphertext). -/
structure ReceiveOutcome where
  channel : SEMChannel
  events : List ChannelEvent
  forwarded : List (Nat × List Nat)
deriving DecidableEq, Repr

/-- Modelled from the spec: `onReceive(databaseHandle, peerHandle,
ciphertext)` of `SecureEphemeralMessagingChannel` (§4.5).  A node without
the symmetric key only re-broadcasts the raw ciphertext to all other live
sessions for the database, with no decryption attempt and no
deduplication.  A keyed node decrypts (`dec`, `none` on authentication
failure) and either emits `received-bad-message`, or deduplicates by
content hash and emits `message`. -/
def semOnReceive (dec : List Nat → List Nat → Option String)
    (contentHash : String → String) (ch : SEMChannel)
    (otherLiveSessions : List Nat) (ciphertext : List Nat) : ReceiveOutcome :=
  match ch.secretKey with
  | none =>
      { channel := ch, events := [],
        forwarded := otherLiveSessions.map (fun sid => (sid, ciphertext)) }
  | some key =>
      match dec key ciphertext with
      | none => { channel := ch, events := [.receivedBadMessage], forwarded := [] }
      | some plaintext =>
          let h := contentHash plaintext
          if h ∈ ch.seen then { channel := ch, events := [], forwarded := [] }
          else
            { channel := { ch with seen := h :: ch.seen },
              events := [.message plaintext], forwarded := [] }

/-- Receiving a sequence of frames (each with the live sessions it is to
be relayed to), accumulating all fired events. -/
def semOnReceiveSeq (dec : List Nat → List Nat → Option String)
    (contentHash : String → String) :
    SEMChannel → List (List Nat × List Nat) → SEMChannel × List ChannelEvent
  | ch, [] => (ch, [])
  | ch, (sessions, ciphertext) :: rest =>
      let r1 := semOnReceive dec contentHash ch sessions ciphertext
      let r2 := semOnReceiveSeq dec contentHash r1.channel rest
      (r2.1, r1.events ++ r2.2)

/-! ## The append-only log (hash chain)

`AppendOnlyLog` is realised by the hypercore dependency, outside this
repository; it is modelled from the specification (§3, §4.1). -/

/-- Modelled from the spec: an `Entry` of an `AppendOnlyLog` (§3) —
`sequence` (0-based), opaque `payload` bytes, a `signature` over
sequence, payload and previous hash, and `previousHash` (hash of the
prior entry, `none` for sequence 0). -/
structure LogEntry where
  sequence : Nat
  payload : List Nat
  signature : List Nat
  previousHash : Option Nat
deriving DecidableEq, Repr

/-- The entry a new append chains to: the last of `l`, or `prev` when
`l` is empty. -/
def lastEntry (prev : Option LogEntry) : List LogEntry → Option LogEntry
  | [] => prev
  | e :: rest => lastEntry (some e) rest

/-- Modelled from the spec: `append(payload)` (§4.1) — computes
`previousHash` from the current tail, signs (`signFn`, over sequence,
payload and previous hash), assigns the next `sequence` and stores the
entry.  `hashEntry` is the entry hash. -/
def appendEntry (hashEntry : LogEntry → Nat)
    (signFn : Nat → List Nat → Option Nat → List Nat)
    (log : List LogEntry) (payload : List Nat) : List LogEntry :=
  let previousHash := (lastEntry none log).map hashEntry
  log ++ [{ sequence := log.length, payload := payload,
            signature := signFn log.length payload previousHash,
            previousHash := previousHash }]

/-- The log produced by a sequence of appends starting from the empty
log. -/
def buildLog (hashEntry : LogEntry → Nat)
    (signFn : Nat → List Nat → Option Nat → List Nat)
    (payloads : List (List Nat)) : List LogEntry :=
  payloads.foldl (appendEntry hashEntry signFn) []

/-- Hash-chain check from position `i` on, `prev` being the entry at
`i - 1`: each entry must carry the next sequence number and the hash of
its predecessor (`none` at the start). -/
def chainOkAux (hashEntry : LogEntry → Nat) :
    Nat → Option LogEntry → List LogEntry → Bool
  | _, _, [] => true
  | i, prev, e :: rest =>
      e.sequence == i && e.previousHash == prev.map hashEntry &&
        chainOkAux hashEntry (i + 1) (some e) rest

/-- A log is a valid hash chain: sequences are 0, 1, 2, … and each
`previousHash` is the hash of the entry one position earlier. -/
def chainOk (hashEntry : LogEntry → Nat) (log : List LogEntry) : Bool :=
  chainOkAux hashEntry 0 none log

/-- A concrete injective entry hash (an encoding of the entry into ℕ),
used to instantiate hash-mismatch-detection statements. -/
def encodeLogEntry (e : LogEntry) : Nat :=
  Encodable.encode (e.sequence, e.payload, e.signature, e.previousHash)

/-! ## Theorems -/

theorem reviveNode_buffer_pair (ds : List JsVal) :
    reviveNode (.obj [("type", .str "Buffer"), ("data", .arr ds)]) =
      .buffer (ds.map coerceByte) := rfl

theorem reviveNode_of_not_shape (v : JsVal) (h : isBufferShape v = false) :
    reviveNode v = v := by
  cases v with
  | obj kvs =>
    simp only [reviveNode]
    split
    · rename_i h1 h2
      simp [isBufferShape, h1, h2] at h
    · rfl
  | null => rfl
  | bool b => rfl
  | num n => rfl
  | str s => rfl
  | arr xs => rfl
  | buffer bs => rfl

theorem wellFormedJsList_mem (xs : List JsVal) (h : wellFormedJsList xs = true) :
    ∀ x ∈ xs, wellFormedJs x = true := by
  induction xs with
  | nil => simp
  | cons a l ih =>
    simp only [wellFormedJsList, Bool.and_eq_true] at h
    intro x hx
    rw [List.mem_cons] at hx
    rcases hx with rfl | hx
    · exact h.1
    · exact ih h.2 x hx

theorem wellFormedJsMembers_mem (kvs : List (String × JsVal))
    (h : wellFormedJsMembers kvs = true) :
    ∀ kv ∈ kvs, wellFormedJs kv.2 = true := by
  induction kvs with
  | nil => simp
  | cons a l ih =>
    obtain ⟨k, v⟩ := a
    simp only [wellFormedJsMembers, Bool.and_eq_true] at h
    intro kv hkv
    rw [List.mem_cons] at hkv
    rcases hkv with rfl | hkv
    · exact h.1
    · exact ih h.2 kv hkv

theorem reviveList_jsonFormList (xs : List JsVal)
    (h : ∀ x ∈ xs, revive (jsonForm x) = x) :
    reviveList (jsonFormList xs) = xs := by
  induction xs with
  | nil => rfl
  | cons a l ih =>
    simp only [jsonFormList, reviveList, List.cons.injEq]
    exact ⟨h a (by simp), ih (fun x hx => h x (by simp [hx]))⟩

theorem reviveMembers_jsonFormMembers (kvs : List (String × JsVal))
    (h : ∀ kv ∈ kvs, revive (jsonForm kv.2) = kv.2) :
    reviveMembers (jsonFormMembers kvs) = kvs := by
  induction kvs with
  | nil => rfl
  | cons a l ih =>
    obtain ⟨k, v⟩ := a
    simp only [jsonFormMembers, reviveMembers, List.cons.injEq]
    exact ⟨by simp [h (k, v) (by simp)], ih (fun kv hkv => h kv (by simp [hkv]))⟩

theorem reviveList_nums (bs : List Nat) :
    reviveList (bs.map (fun b => JsVal.num (b : Int))) =
      bs.map (fun b => JsVal.num (b : Int)) := by
  induction bs with
  | nil => rfl
  | cons b l ih =>
    show JsVal.num (b : Int) :: reviveList (l.map (fun b => JsVal.num (b : Int))) = _
    rw [ih]
    rfl

theorem map_coerceByte_nums (bs : List Nat) (h : ∀ b ∈ bs, b < 256) :
    (bs.map (fun b => JsVal.num (b : Int))).map coerceByte = bs := by
  induction bs with
  | nil => rfl
  | cons b l ih =>
    have hb : b < 256 := h b (by simp)
    show coerceByte (JsVal.num (b : Int)) ::
      (l.map (fun b => JsVal.num (b : Int))).map coerceByte = b :: l
    rw [ih (fun x hx => h x (by simp [hx]))]
    have hc : coerceByte (JsVal.num (b : Int)) = b := by
      show ((b : Int) % 256).toNat = b
      omega
    rw [hc]

theorem revive_jsonForm_of_wellFormed :
    ∀ v, wellFormedJs v = true → revive (jsonForm v) = v := by
  intro v
  induction v using jsValInduct with
  | hnull => intro _; rfl
  | hbool b => intro _; rfl
  | hnum n => intro _; rfl
  | hstr s => intro _; rfl
  | harr xs ih =>
    intro hwf
    simp only [wellFormedJs] at hwf
    simp only [jsonForm, revive]
    rw [reviveList_jsonFormList xs
      (fun x hx => ih x hx (wellFormedJsList_mem xs hwf x hx))]
  | hobj kvs ih =>
    intro hwf
    simp only [wellFormedJs, Bool.and_eq_true, Bool.not_eq_true'] at hwf
    obtain ⟨hshape, hmem⟩ := hwf
    simp only [jsonForm, revive]
    rw [reviveMembers_jsonFormMembers kvs
      (fun kv hkv => ih kv hkv (wellFormedJsMembers_mem kvs hmem kv hkv))]
    exact reviveNode_of_not_shape _ hshape
  | hbuf bs =>
    intro hwf
    simp only [wellFormedJs, List.all_eq_true, decide_eq_true_eq] at hwf
    have h1 : revive (jsonForm (.buffer bs)) =
        reviveNode (.obj [("type", .str "Buffer"),
          ("data", .arr (reviveList (bs.map (fun b => JsVal.num (b : Int)))))]) := rfl
    rw [h1, reviveList_nums, reviveNode_buffer_pair, map_coerceByte_nums bs hwf]

theorem pureJsonList_mem (xs : List JsVal)
    (h : pureJsonNoBufferShapeList xs = true) :
    ∀ x ∈ xs, pureJsonNoBufferShape x = true := by
  induction xs with
  | nil => simp
  | cons a l ih =>
    simp only [pureJsonNoBufferShapeList, Bool.and_eq_true] at h
    intro x hx
    rw [List.mem_cons] at hx
    rcases hx with rfl | hx
    · exact h.1
    · exact ih h.2 x hx

theorem pureJsonMembers_mem (kvs : List (String × JsVal))
    (h : pureJsonNoBufferShapeMembers kvs = true) :
    ∀ kv ∈ kvs, pureJsonNoBufferShape kv.2 = true := by
  induction kvs with
  | nil => simp
  | cons a l ih =>
    obtain ⟨k, v⟩ := a
    simp only [pureJsonNoBufferShapeMembers, Bool.and_eq_true] at h
    intro kv hkv
    rw [List.mem_cons] at hkv
    rcases hkv with rfl | hkv
    · exact h.1
    · exact ih h.2 kv hkv

theorem reviveList_eq_self (xs : List JsVal) (h : ∀ x ∈ xs, revive x = x) :
    reviveList xs = xs := by
  induction xs with
  | nil => rfl
  | cons a l ih =>
    simp only [reviveList, List.cons.injEq]
    exact ⟨h a (by simp), ih (fun x hx => h x (by simp [hx]))⟩

theorem reviveMembers_eq_self (kvs : List (String × JsVal))
    (h : ∀ kv ∈ kvs, revive kv.2 = kv.2) :
    reviveMembers kvs = kvs := by
  induction kvs with
  | nil => rfl
  | cons a l ih =>
    obtain ⟨k, v⟩ := a
    simp only [reviveMembers, List.cons.injEq]
    exact ⟨by simp [h (k, v) (by simp)], ih (fun kv hkv => h kv (by simp [hkv]))⟩

theorem revive_eq_self_of_pureJson :
    ∀ v, pureJsonNoBufferShape v = true → revive v = v := by
  intro v
  induction v using jsValInduct with
  | hnull => intro _; rfl
  | hbool b => intro _; rfl
  | hnum n => intro _; rfl
  | hstr s => intro _; rfl
  | harr xs ih =>
    intro hp
    simp only [pureJsonNoBufferShape] at hp
    simp only [revive]
    rw [reviveList_eq_self xs (fun x hx => ih x hx (pureJsonList_mem xs hp x hx))]
  | hobj kvs ih =>
    intro hp
    simp only [pureJsonNoBufferShape, Bool.and_eq_true, Bool.not_eq_true'] at hp
    obtain ⟨hshape, hmem⟩ := hp
    simp only [revive]
    rw [reviveMembers_eq_self kvs
      (fun kv hkv => ih kv hkv (pureJsonMembers_mem kvs hmem kv hkv))]
    exact reviveNode_of_not_shape _ hshape
  | hbuf bs =>
    intro hp
    simp [pureJsonNoBufferShape] at hp

/-- C10: `jsonParseWithBufferSupport` applied to `JSON.stringify` of any
JavaScript value whose Buffers hold bytes and that contains no plain
object of the serialised-Buffer shape reconstitutes the value exactly, in
particular every Buffer with the same byte contents; and on plain parsed
JSON containing no value of the serialised-Buffer shape the reviver
changes nothing, i.e. the function behaves exactly like plain
`JSON.parse`. -/
theorem claim_C10 :
    (∀ v, wellFormedJs v = true → revive (jsonForm v) = v) ∧
    (∀ v, pureJsonNoBufferShape v = true → revive v = v) :=
  ⟨revive_jsonForm_of_wellFormed, revive_eq_self_of_pureJson⟩

/-- Witness for C10: the round trip of the test object
`\x7b buffer: Buffer.from('Hello') \x7d` and the reviver's inertness on a plain
object. -/
theorem claim_C10_witness :
    revive (jsonForm (.obj [("buffer", .buffer [72, 101, 108, 108, 111])])) =
      .obj [("buffer", .buffer [72, 101, 108, 108, 111])] ∧
    revive (.obj [("a", .num 1), ("type", .str "Buffer")]) =
      .obj [("a", .num 1), ("type", .str "Buffer")] :=
  ⟨claim_C10.1 _ rfl, claim_C10.2 _ rfl⟩

/-- C3 (code bug): the sign-up guard `settings.readKey !== null` fires
even on a never-provisioned node, because the shipped default settings
hold `readKey = ''`, which is not `null`.  Hence every sign-up request —
already on the failing input `defaultSettings` — is answered with the
already-exists error and a closed socket, and no replication starts,
contradicting the claim (and the route's own comment) that a
fresh node accepts sign-up. -/
theorem claim_C3 :
    provisioned defaultSettings = false ∧
    ∀ readKey, signUp defaultSettings readKey =
      (defaultSettings, .rejected "Hypha already exists.") :=
  ⟨rfl, fun _ => rfl⟩

/-- C7: the well-known discovery path returns exactly the read key
stored in settings as plain text, and the client maps the empty response
to `null` (absence) and returns any non-empty response unchanged. -/
theorem claim_C7 :
    (∀ v, wellKnownDatResponse { readKey := .str v } = v) ∧
    getReadKeyFromDatDNS "" = none ∧
    (∀ r, r ≠ "" → getReadKeyFromDatDNS r = some r) :=
  ⟨fun _ => rfl, rfl, fun r hr => by simp [getReadKeyFromDatDNS, hr]⟩

/-- Witness for C7 at the read key of native/index.js. -/
theorem claim_C7_witness :
    wellKnownDatResponse
      { readKey := .str "0b77c7fc5a7dd4be30bf8e7c02c2c1a87798f0218697ce07b2bce93a5da82ba4" } =
      "0b77c7fc5a7dd4be30bf8e7c02c2c1a87798f0218697ce07b2bce93a5da82ba4" ∧
    getReadKeyFromDatDNS "0b77c7fc5a7dd4be30bf8e7c02c2c1a87798f0218697ce07b2bce93a5da82ba4" =
      some "0b77c7fc5a7dd4be30bf8e7c02c2c1a87798f0218697ce07b2bce93a5da82ba4" :=
  ⟨claim_C7.1 _, claim_C7.2.2 _ (by decide)⟩

theorem insertHash_mem_self (h : String) (seen : List String) :
    h ∈ insertHash h seen := by
  unfold insertHash
  split
  · assumption
  · exact List.mem_cons_self h seen

theorem insertHash_of_not_mem (h : String) (seen : List String)
    (hn : h ∉ seen) : insertHash h seen = h :: seen := by
  unfold insertHash
  exact if_neg hn

theorem handleRequest_hashes (authorizedResult : Option Bool) (s : BrowserNode)
    (r : EphemeralRequest) :
    (handleRequest authorizedResult s r).1.ephemeralMessageHashes =
      s.ephemeralMessageHashes := by
  unfold handleRequest
  split
  · cases authorizedResult with
    | none => rfl
    | some b => cases b <;> rfl
  · rfl

theorem onEphemeralMessage_of_mem (sha256hex : String → String)
    (authorizedResult : Option Bool) (s : BrowserNode) (m : EphemeralRequest)
    (hm : createMessageHash sha256hex m ∈ s.ephemeralMessageHashes) :
    onEphemeralMessage sha256hex authorizedResult s m = (s, []) := by
  unfold onEphemeralMessage
  exact if_pos hm

theorem onEphemeralMessage_of_not_mem (sha256hex : String → String)
    (authorizedResult : Option Bool) (s : BrowserNode) (m : EphemeralRequest)
    (hm : createMessageHash sha256hex m ∉ s.ephemeralMessageHashes) :
    onEphemeralMessage sha256hex authorizedResult s m =
      handleRequest authorizedResult
        { s with ephemeralMessageHashes :=
            createMessageHash sha256hex m :: s.ephemeralMessageHashes } m := by
  unfold onEphemeralMessage
  rw [if_neg hm, insertHash_of_not_mem _ _ hm]

theorem onEphemeralMessage_hash_seen (sha256hex : String → String)
    (authorizedResult : Option Bool) (s : BrowserNode) (m : EphemeralRequest) :
    createMessageHash sha256hex m ∈
      (onEphemeralMessage sha256hex authorizedResult s m).1.ephemeralMessageHashes := by
  by_cases hm : createMessageHash sha256hex m ∈ s.ephemeralMessageHashes
  · rw [onEphemeralMessage_of_mem sha256hex authorizedResult s m hm]
    exact hm
  · rw [onEphemeralMessage_of_not_mem sha256hex authorizedResult s m hm]
    rw [handleRequest_hashes]
    exact List.mem_cons_self _ _

theorem receiveAll_of_mem (sha256hex : String → String)
    (authorizedResult : Option Bool) (m : EphemeralRequest) :
    ∀ (n : Nat) (s : BrowserNode),
      createMessageHash sha256hex m ∈ s.ephemeralMessageHashes →
      receiveAll sha256hex authorizedResult s (List.replicate n m) = (s, []) := by
  intro n
  induction n with
  | zero => intro s _; rfl
  | succ k ih =>
    intro s hm
    rw [List.replicate_succ]
    simp only [receiveAll, onEphemeralMessage_of_mem sha256hex authorizedResult s m hm,
      ih s hm]
    simp

/-- C1: a received ephemeral message whose content hash is already in the
seen-set is dropped with no further effect; on a first receipt, the
seen-set is extended with the hash before the request is acted on, and
the hash is in the seen-set afterwards; receiving the same message any
positive number of times has exactly the effect (state and
application-level events) of receiving it once; and an echo of a message
the node itself just broadcast is dropped. -/
theorem claim_C1 (sha256hex : String → String) (authorizedResult : Option Bool)
    (s : BrowserNode) (m : EphemeralRequest)
    (hnew : createMessageHash sha256hex m ∉ s.ephemeralMessageHashes) :
    (∀ s' : BrowserNode, createMessageHash sha256hex m ∈ s'.ephemeralMessageHashes →
        onEphemeralMessage sha256hex authorizedResult s' m = (s', [])) ∧
    onEphemeralMessage sha256hex authorizedResult s m =
      handleRequest authorizedResult
        { s with ephemeralMessageHashes :=
            createMessageHash sha256hex m :: s.ephemeralMessageHashes } m ∧
    createMessageHash sha256hex m ∈
      (onEphemeralMessage sha256hex authorizedResult s m).1.ephemeralMessageHashes ∧
    (∀ n : Nat, receiveAll sha256hex authorizedResult s (List.replicate (n + 1) m) =
        onEphemeralMessage sha256hex authorizedResult s m) ∧
    (∀ nodeName timestamp localReadKey,
      onEphemeralMessage sha256hex authorizedResult
        (requestAuthorisation sha256hex s nodeName timestamp localReadKey).1
        (requestAuthorisation sha256hex s nodeName timestamp localReadKey).2 =
      ((requestAuthorisation sha256hex s nodeName timestamp localReadKey).1, [])) := by
  refine ⟨fun s' hm => onEphemeralMessage_of_mem sha256hex authorizedResult s' m hm,
    onEphemeralMessage_of_not_mem sha256hex authorizedResult s m hnew,
    onEphemeralMessage_hash_seen sha256hex authorizedResult s m, ?_, ?_⟩
  · intro n
    rw [List.replicate_succ]
    simp only [receiveAll,
      receiveAll_of_mem sha256hex authorizedResult m n
        (onEphemeralMessage sha256hex authorizedResult s m).1
        (onEphemeralMessage_hash_seen sha256hex authorizedResult s m)]
    simp
  · intro nodeName timestamp localReadKey
    apply onEphemeralMessage_of_mem
    show createMessageHash sha256hex _ ∈ insertHash (createMessageHash sha256hex _) _
    exact insertHash_mem_self _ _

/-- C5: the handler surfaces an authorisation request (the
`showAuthorisationRequest` event, which is what later leads to
`db.authorize`) only when the local writer's own authorisation check
`db.authorized(db.local.key, …)` returned `true`; when it returns
`false` or errors, no event fires and `model.lastRequest` is untouched,
so no authorisation record can be produced. -/
theorem claim_C5 (sha256hex : String → String) (authorizedResult : Option Bool)
    (s : BrowserNode) (m : EphemeralRequest) :
    ((∃ nodeName, UiEvent.showAuthorisationRequest nodeName ∈
        (onEphemeralMessage sha256hex authorizedResult s m).2) →
      authorizedResult = some true) ∧
    (authorizedResult ≠ some true →
      (onEphemeralMessage sha256hex authorizedResult s m).2 = [] ∧
      (onEphemeralMessage sha256hex authorizedResult s m).1.lastRequest =
        s.lastRequest) := by
  by_cases hm : createMessageHash sha256hex m ∈ s.ephemeralMessageHashes
  · rw [onEphemeralMessage_of_mem sha256hex authorizedResult s m hm]
    exact ⟨fun ⟨_, hn⟩ => absurd hn (List.not_mem_nil _), fun _ => ⟨rfl, rfl⟩⟩
  · rw [onEphemeralMessage_of_not_mem sha256hex authorizedResult s m hm]
    unfold handleRequest
    split
    · cases authorizedResult with
      | none => exact ⟨fun ⟨_, hn⟩ => absurd hn (List.not_mem_nil _), fun _ => ⟨rfl, rfl⟩⟩
      | some b =>
        cases b with
        | true => exact ⟨fun _ => rfl, fun hne => absurd rfl hne⟩
        | false => exact ⟨fun ⟨_, hn⟩ => absurd hn (List.not_mem_nil _), fun _ => ⟨rfl, rfl⟩⟩
    · exact ⟨fun ⟨_, hn⟩ => absurd hn (List.not_mem_nil _), fun _ => ⟨rfl, rfl⟩⟩

/-- Witness for C1 on a concrete request received three times. -/
theorem claim_C1_witness :
    receiveAll (fun s => s) (some true)
      { ephemeralMessageHashes := [], lastRequest := none }
      (List.replicate 3
        { nodeName := "Firefox on Linux", timestamp := "2019-02-01T00:00:00.000Z",
          action := "authorise", readKey := "ab01" }) =
    onEphemeralMessage (fun s => s) (some true)
      { ephemeralMessageHashes := [], lastRequest := none }
      { nodeName := "Firefox on Linux", timestamp := "2019-02-01T00:00:00.000Z",
        action := "authorise", readKey := "ab01" } := by
  have h := claim_C1 (fun s => s) (some true)
    { ephemeralMessageHashes := [], lastRequest := none }
    { nodeName := "Firefox on Linux", timestamp := "2019-02-01T00:00:00.000Z",
      action := "authorise", readKey := "ab01" }
    (by simp)
  exact h.2.2.2.1 2

/-- Witness for C5: an errored authorisation check at a concrete request
surfaces nothing and leaves the state untouched. -/
theorem claim_C5_witness :
    (onEphemeralMessage (fun s => s) none
      { ephemeralMessageHashes := [], lastRequest := none }
      { nodeName := "Firefox on Linux", timestamp := "2019-02-01T00:00:00.000Z",
        action := "authorise", readKey := "ab01" }).2 = [] ∧
    (onEphemeralMessage (fun s => s) none
      { ephemeralMessageHashes := [], lastRequest := none }
      { nodeName := "Firefox on Linux", timestamp := "2019-02-01T00:00:00.000Z",
        action := "authorise", readKey := "ab01" }).1.lastRequest = none := by
  have h := claim_C5 (fun s => s) none
    { ephemeralMessageHashes := [], lastRequest := none }
    { nodeName := "Firefox on Linux", timestamp := "2019-02-01T00:00:00.000Z",
      action := "authorise", readKey := "ab01" }
  exact h.2 (by simp)

theorem applyBrowserOp_hashes (sha256hex : String → String) (s : BrowserNode)
    (op : BrowserOp) :
    (applyBrowserOp sha256hex s op).ephemeralMessageHashes = s.ephemeralMessageHashes ∨
    ∃ h, h ∉ s.ephemeralMessageHashes ∧
      (applyBrowserOp sha256hex s op).ephemeralMessageHashes =
        h :: s.ephemeralMessageHashes := by
  cases op with
  | receiveMessage authorizedResult m =>
    by_cases hm : createMessageHash sha256hex m ∈ s.ephemeralMessageHashes
    · left
      show (onEphemeralMessage sha256hex authorizedResult s m).1.ephemeralMessageHashes = _
      rw [onEphemeralMessage_of_mem sha256hex authorizedResult s m hm]
    · right
      refine ⟨createMessageHash sha256hex m, hm, ?_⟩
      show (onEphemeralMessage sha256hex authorizedResult s m).1.ephemeralMessageHashes = _
      rw [onEphemeralMessage_of_not_mem sha256hex authorizedResult s m hm,
        handleRequest_hashes]
  | requestAuth nodeName timestamp localReadKey =>
    by_cases hm : createMessageHash sha256hex
        { nodeName := nodeName, timestamp := timestamp,
          action := "authorise", readKey := localReadKey } ∈ s.ephemeralMessageHashes
    · left
      show insertHash _ s.ephemeralMessageHashes = s.ephemeralMessageHashes
      exact if_pos hm
    · right
      refine ⟨_, hm, ?_⟩
      show insertHash _ s.ephemeralMessageHashes = _ :: s.ephemeralMessageHashes
      exact if_neg hm

/-- C6: the ephemeral-message seen-set is monotone for the lifetime of
the process: every operation that touches it (receiving a message,
broadcasting an authorisation request) either leaves it unchanged or
adds exactly one new content hash, and across any sequence of operations
a hash once present stays present. -/
theorem claim_C6 (sha256hex : String → String) :
    (∀ (s : BrowserNode) (op : BrowserOp),
      s.ephemeralMessageHashes ⊆ (applyBrowserOp sha256hex s op).ephemeralMessageHashes ∧
      ((applyBrowserOp sha256hex s op).ephemeralMessageHashes =
          s.ephemeralMessageHashes ∨
        ∃ h, h ∉ s.ephemeralMessageHashes ∧
          (applyBrowserOp sha256hex s op).ephemeralMessageHashes =
            h :: s.ephemeralMessageHashes)) ∧
    (∀ (ops : List BrowserOp) (s : BrowserNode) (h : String),
      h ∈ s.ephemeralMessageHashes →
      h ∈ (ops.foldl (applyBrowserOp sha256hex) s).ephemeralMessageHashes) := by
  have hsub : ∀ (s : BrowserNode) (op : BrowserOp),
      s.ephemeralMessageHashes ⊆ (applyBrowserOp sha256hex s op).ephemeralMessageHashes := by
    intro s op
    rcases applyBrowserOp_hashes sha256hex s op with heq | ⟨h, _, heq⟩
    · rw [heq]
      exact List.Subset.refl _
    · rw [heq]
      exact List.subset_cons_self _ _
  refine ⟨fun s op => ⟨hsub s op, applyBrowserOp_hashes sha256hex s op⟩, ?_⟩
  intro ops
  induction ops with
  | nil => intro s h hm; exact hm
  | cons op rest ih =>
    intro s h hm
    rw [List.foldl_cons]
    exact ih (applyBrowserOp sha256hex s op) h (hsub s op hm)

/-- Witness for C6: a hash present before a broadcast operation is still
present after it. -/
theorem claim_C6_witness :
    "aa" ∈ (([BrowserOp.requestAuth "Firefox on Linux" "2019-02-01T00:00:00.000Z" "ab01"].foldl
      (applyBrowserOp (fun s => s))
      { ephemeralMessageHashes := ["aa"], lastRequest := none }).ephemeralMessageHashes) :=
  (claim_C6 (fun s => s)).2 _ _ "aa" (by decide)

/-- C2: a relay channel constructed without the symmetric key, on every
ciphertext frame it receives, fires no event (in particular no `message`
event), leaves its state — including the seen-set — untouched, and
forwards the raw ciphertext unchanged to every other live session; over
any sequence of received frames the channel state stays identical and no
event ever fires. -/
theorem claim_C2 (dec : List Nat → List Nat → Option String)
    (contentHash : String → String) (ch : SEMChannel)
    (hrelay : ch.secretKey = none) :
    (∀ (otherLiveSessions : List Nat) (ciphertext : List Nat),
      semOnReceive dec contentHash ch otherLiveSessions ciphertext =
        { channel := ch, events := [],
          forwarded := otherLiveSessions.map (fun sid => (sid, ciphertext)) }) ∧
    (∀ frames, semOnReceiveSeq dec contentHash ch frames = (ch, [])) := by
  have h1 : ∀ (otherLiveSessions : List Nat) (ciphertext : List Nat),
      semOnReceive dec contentHash ch otherLiveSessions ciphertext =
        { channel := ch, events := [],
          forwarded := otherLiveSessions.map (fun sid => (sid, ciphertext)) } := by
    intro sessions ciphertext
    simp only [semOnReceive, hrelay]
  refine ⟨h1, ?_⟩
  intro frames
  induction frames with
  | nil => rfl
  | cons f rest ih =>
    obtain ⟨sessions, ciphertext⟩ := f
    simp only [semOnReceiveSeq, h1 sessions ciphertext, ih]
    rfl

/-- Witness for C2: a key-less relay forwarding two frames. -/
theorem claim_C2_witness :
    semOnReceiveSeq (fun _ _ => none) (fun s => s) { secretKey := none, seen := [] }
      [([1, 2], [9, 9, 9]), ([3], [7, 7])] =
      ({ secretKey := none, seen := [] }, []) :=
  (claim_C2 (fun _ _ => none) (fun s => s) { secretKey := none, seen := [] } rfl).2 _

/-- C4: on a keyed channel, a ciphertext whose decryption/authentication
fails produces exactly the observable `received-bad-message` event (no
exception in the model), no `message` event, an unchanged seen-set, and
no plaintext is delivered or forwarded anywhere. -/
theorem claim_C4 (dec : List Nat → List Nat → Option String)
    (contentHash : String → String) (ch : SEMChannel) (key : List Nat)
    (otherLiveSessions : List Nat) (ciphertext : List Nat)
    (hkey : ch.secretKey = some key) (hfail : dec key ciphertext = none) :
    semOnReceive dec contentHash ch otherLiveSessions ciphertext =
      { channel := ch, events := [.receivedBadMessage], forwarded := [] } ∧
    (∀ p, ChannelEvent.message p ∉
      (semOnReceive dec contentHash ch otherLiveSessions ciphertext).events) ∧
    (semOnReceive dec contentHash ch otherLiveSessions ciphertext).channel.seen =
      ch.seen := by
  have h1 : semOnReceive dec contentHash ch otherLiveSessions ciphertext =
      { channel := ch, events := [.receivedBadMessage], forwarded := [] } := by
    simp only [semOnReceive, hkey, hfail]
  refine ⟨h1, ?_, by rw [h1]⟩
  intro p
  rw [h1]
  simp

/-- Witness for C4: a failing decryption on a keyed channel. -/
theorem claim_C4_witness :
    semOnReceive (fun _ _ => none) (fun s => s)
      { secretKey := some [1], seen := ["h0"] } [5] [9, 9] =
      { channel := { secretKey := some [1], seen := ["h0"] },
        events := [.receivedBadMessage], forwarded := [] } :=
  (claim_C4 (fun _ _ => none) (fun s => s)
    { secretKey := some [1], seen := ["h0"] } [1] [5] [9, 9] rfl rfl).1

theorem utf8_round_trip (s : String) : utf8Decode (utf8Encode s) = s := by
  unfold utf8Encode utf8Decode
  rw [List.map_map]
  exact congrArg String.mk (List.map_id'' (fun c => Char.ofNat_toNat c) s.data)

/-- C9: decrypting what `encrypt` produced, with the same key (Buffer or
hex string) and the returned nonce, yields the original string message —
and `JSON.stringify` of the message when it was not a string; moreover
the ciphertext is exactly `crypto_secretbox_MACBYTES` longer than the
UTF-8 encoding of the message and the nonce has exactly
`crypto_secretbox_NONCEBYTES` bytes.  The hypotheses are the documented
contracts of the sodium primitives: `randombytes_buf` fills the buffer it
is given, `crypto_secretbox_easy` outputs the message length plus the MAC
length, and `crypto_secretbox_open_easy` inverts it under the same nonce
and key. -/
theorem claim_C9
    (secretbox secretboxOpen : List Nat → List Nat → List Nat → List Nat)
    (randomBytes : Nat → List Nat)
    (hrand : ∀ n, (randomBytes n).length = n)
    (hlen : ∀ m nonce key, (secretbox m nonce key).length =
      m.length + crypto_secretbox_MACBYTES)
    (hopen : ∀ m nonce key, secretboxOpen (secretbox m nonce key) nonce key = m)
    (message : JsMessage) (secretKey : KeyInput) :
    decrypt secretboxOpen
        (encrypt secretbox randomBytes message secretKey).ciphertext secretKey
        (encrypt secretbox randomBytes message secretKey).nonce =
      .ok (messageString message) ∧
    (encrypt secretbox randomBytes message secretKey).ciphertext.length =
      (utf8Encode (messageString message)).length + crypto_secretbox_MACBYTES ∧
    (encrypt secretbox randomBytes message secretKey).nonce.length =
      crypto_secretbox_NONCEBYTES := by
  have hn : (encrypt secretbox randomBytes message secretKey).nonce =
      randomBytes crypto_secretbox_NONCEBYTES := rfl
  have hc : (encrypt secretbox randomBytes message secretKey).ciphertext =
      secretbox (utf8Encode (messageString message))
        (randomBytes crypto_secretbox_NONCEBYTES) (normalizeKey secretKey) := rfl
  refine ⟨?_, ?_, ?_⟩
  · rw [hn, hc]
    unfold decrypt
    rw [if_neg (by rw [hrand]; exact fun hne => hne rfl)]
    show Except.ok (utf8Decode (secretboxOpen
      (secretbox (utf8Encode (messageString message))
        (randomBytes crypto_secretbox_NONCEBYTES) (normalizeKey secretKey))
      (randomBytes crypto_secretbox_NONCEBYTES) (normalizeKey secretKey))) = _
    rw [hopen, utf8_round_trip]
  · rw [hc, hlen]
  · rw [hn, hrand]

/-- Witness for C9: the round trip of the test in test/lib/crypto.js
('Hello, world!' under the hex test key), with sodium instantiated by a
scheme satisfying the contracts (16 marker bytes prepended, dropped on
open). -/
theorem claim_C9_witness :
    decrypt (fun c _ _ => c.drop 16)
      (encrypt (fun m _ _ => List.replicate 16 0 ++ m) (fun n => List.replicate n 0)
        (.str "Hello, world!")
        (.hex "2b32b9c560b52392a1b59bdc218234a2ff66c6d3f460bb5004aac00f251e9222")).ciphertext
      (.hex "2b32b9c560b52392a1b59bdc218234a2ff66c6d3f460bb5004aac00f251e9222")
      (encrypt (fun m _ _ => List.replicate 16 0 ++ m) (fun n => List.replicate n 0)
        (.str "Hello, world!")
        (.hex "2b32b9c560b52392a1b59bdc218234a2ff66c6d3f460bb5004aac00f251e9222")).nonce =
      .ok "Hello, world!" := by
  have h := claim_C9 (fun m _ _ => List.replicate 16 0 ++ m) (fun c _ _ => c.drop 16)
    (fun n => List.replicate n 0)
    (fun n => by simp)
    (fun m nonce key => by
      show (List.replicate 16 0 ++ m).length = m.length + crypto_secretbox_MACBYTES
      simp [crypto_secretbox_MACBYTES])
    (fun m nonce key => by
      show (List.replicate 16 0 ++ m).drop 16 = m
      simp)
    (.str "Hello, world!")
    (.hex "2b32b9c560b52392a1b59bdc218234a2ff66c6d3f460bb5004aac00f251e9222")
  exact h.1

theorem lastEntry_concat (e : LogEntry) :
    ∀ (l : List LogEntry) (prev : Option LogEntry),
      lastEntry prev (l ++ [e]) = some e := by
  intro l
  induction l with
  | nil => intro prev; rfl
  | cons a rest ih => intro prev; exact ih (some a)

theorem chainOkAux_concat (hf : LogEntry → Nat) (e : LogEntry) :
    ∀ (l : List LogEntry) (i : Nat) (prev : Option LogEntry),
      chainOkAux hf i prev (l ++ [e]) = true ↔
        (chainOkAux hf i prev l = true ∧ e.sequence = i + l.length ∧
          e.previousHash = (lastEntry prev l).map hf) := by
  intro l
  induction l with
  | nil =>
    intro i prev
    simp [chainOkAux, lastEntry]
  | cons a rest ih =>
    intro i prev
    rw [List.cons_append]
    simp only [chainOkAux, Bool.and_eq_true, beq_iff_eq, List.length_cons, lastEntry]
    rw [ih (i + 1) (some a)]
    have harith : i + (rest.length + 1) = i + 1 + rest.length := by omega
    rw [harith]
    tauto

theorem chainOk_appendEntry (hf : LogEntry → Nat)
    (sf : Nat → List Nat → Option Nat → List Nat)
    (log : List LogEntry) (p : List Nat) (h : chainOk hf log = true) :
    chainOk hf (appendEntry hf sf log p) = true := by
  unfold chainOk at h ⊢
  unfold appendEntry
  refine (chainOkAux_concat hf _ log 0 none).mpr ⟨h, by simp, rfl⟩

theorem chainOk_buildLog (hf : LogEntry → Nat)
    (sf : Nat → List Nat → Option Nat → List Nat) (payloads : List (List Nat)) :
    chainOk hf (buildLog hf sf payloads) = true := by
  have hgen : ∀ (ps : List (List Nat)) (log : List LogEntry),
      chainOk hf log = true → chainOk hf (ps.foldl (appendEntry hf sf) log) = true := by
    intro ps
    induction ps with
    | nil => intro log h; exact h
    | cons p rest ih =>
      intro log h
      rw [List.foldl_cons]
      exact ih (appendEntry hf sf log p) (chainOk_appendEntry hf sf log p h)
  exact hgen payloads [] rfl

theorem chainOkAux_index (hf : LogEntry → Nat) :
    ∀ (l : List LogEntry) (i : Nat) (prev : Option LogEntry),
      chainOkAux hf i prev l = true → ∀ (j : Nat) (e : LogEntry), l[j]? = some e →
        e.sequence = i + j ∧
        e.previousHash = (if j = 0 then prev else l[j - 1]?).map hf := by
  intro l
  induction l with
  | nil =>
    intro i prev _ j e hj
    simp at hj
  | cons a rest ih =>
    intro i prev hok j e hj
    simp only [chainOkAux, Bool.and_eq_true, beq_iff_eq] at hok
    obtain ⟨⟨h1, h2⟩, h3⟩ := hok
    cases j with
    | zero =>
      have he : e = a := by
        have := hj
        simp at this
        exact this.symm
      subst he
      refine ⟨by omega, by simpa using h2⟩
    | succ k =>
      have hj2 : rest[k]? = some e := by simpa using hj
      have hres := ih (i + 1) (some a) h3 k e hj2
      refine ⟨by omega, ?_⟩
      cases k with
      | zero => simpa using hres.2
      | succ k2 => simpa using hres.2

theorem chainOk_tail_hash_unique (hf : LogEntry → Nat)
    (hinj : Function.Injective hf) :
    ∀ (l l' : List LogEntry), chainOk hf l = true → chainOk hf l' = true →
      (lastEntry none l).map hf = (lastEntry none l').map hf → l = l' := by
  intro l
  induction l using List.reverseRecOn with
  | nil =>
    intro l' _ hok' hlast
    rcases List.eq_nil_or_concat l' with rfl | ⟨L, b, rfl⟩
    · rfl
    · rw [List.concat_eq_append, lastEntry_concat] at hlast
      simp [lastEntry] at hlast
  | append_singleton L a ihL =>
    intro l' hok hok' hlast
    rcases List.eq_nil_or_concat l' with rfl | ⟨L2, b, rfl⟩
    · rw [lastEntry_concat] at hlast
      simp [lastEntry] at hlast
    · rw [List.concat_eq_append] at hok' hlast ⊢
      rw [lastEntry_concat, lastEntry_concat] at hlast
      have hab : a = b := hinj (by simpa using hlast)
      subst hab
      unfold chainOk at hok hok'
      obtain ⟨hL, hseq, hprev⟩ := (chainOkAux_concat hf a L 0 none).mp hok
      obtain ⟨hL2, hseq2, hprev2⟩ := (chainOkAux_concat hf a L2 0 none).mp hok'
      have hLeq : L = L2 := ihL L2 hL hL2 (by rw [← hprev, ← hprev2])
      rw [hLeq]

/-- C8: a log produced by any sequence of verified appends is a valid
hash chain — entry `j` carries sequence number exactly `j` (so sequences
increase by exactly 1 from 0) and `previousHash` equal to the hash of
entry `j - 1` (`none` for entry 0); and with a collision-free entry hash
two valid chains with the same tail hash are identical, so any truncation
or reordering of a log is detectable by a hash mismatch. -/
theorem claim_C8 (hashEntry : LogEntry → Nat)
    (signFn : Nat → List Nat → Option Nat → List Nat)
    (payloads : List (List Nat)) :
    chainOk hashEntry (buildLog hashEntry signFn payloads) = true ∧
    (∀ (j : Nat) (e : LogEntry), (buildLog hashEntry signFn payloads)[j]? = some e →
      e.sequence = j ∧
      e.previousHash =
        (if j = 0 then none else (buildLog hashEntry signFn payloads)[j - 1]?).map
          hashEntry) ∧
    (Function.Injective hashEntry →
      ∀ l l', chainOk hashEntry l = true → chainOk hashEntry l' = true →
        (lastEntry none l).map hashEntry = (lastEntry none l').map hashEntry →
        l = l') := by
  refine ⟨chainOk_buildLog hashEntry signFn payloads, ?_,
    fun hinj => chainOk_tail_hash_unique hashEntry hinj⟩
  intro j e hj
  have h := chainOkAux_index hashEntry (buildLog hashEntry signFn payloads) 0 none
    (chainOk_buildLog hashEntry signFn payloads) j e hj
  exact ⟨by omega, h.2⟩

theorem encodeLogEntry_injective : Function.Injective encodeLogEntry := by
  intro a b h
  have h2 : (a.sequence, a.payload, a.signature, a.previousHash) =
      (b.sequence, b.payload, b.signature, b.previousHash) :=
    Encodable.encode_injective h
  simp only [Prod.mk.injEq] at h2
  obtain ⟨e1, e2, e3, e4⟩ := h2
  cases a
  cases b
  simp_all

/-- Witness for C8: the two-append log under the injective encoding
hash — the chain checks out, entry 1 carries sequence 1 and the hash of
entry 0, and the uniqueness statement applied to the one-append log. -/
theorem claim_C8_witness :
    chainOk encodeLogEntry
      (buildLog encodeLogEntry (fun _ _ _ => []) [[1], [2]]) = true ∧
    ({ sequence := 1, payload := [2], signature := [],
       previousHash := some (encodeLogEntry
         { sequence := 0, payload := [1], signature := [],
           previousHash := none }) } : LogEntry).sequence = 1 ∧
    buildLog encodeLogEntry (fun _ _ _ => []) [[1]] =
      buildLog encodeLogEntry (fun _ _ _ => []) [[1]] := by
  refine ⟨(claim_C8 encodeLogEntry (fun _ _ _ => []) [[1], [2]]).1, ?_, ?_⟩
  · exact ((claim_C8 encodeLogEntry (fun _ _ _ => []) [[1], [2]]).2.1 1
      { sequence := 1, payload := [2], signature := [],
        previousHash := some (encodeLogEntry
          { sequence := 0, payload := [1], signature := [],
            previousHash := none }) } rfl).1
  · exact (claim_C8 encodeLogEntry (fun _ _ _ => []) [[1]]).2.2
      encodeLogEntry_injective
      (buildLog encodeLogEntry (fun _ _ _ => []) [[1]])
      (buildLog encodeLogEntry (fun _ _ _ => []) [[1]])
      ((claim_C8 encodeLogEntry (fun _ _ _ => []) [[1]]).1)
      ((claim_C8 encodeLogEntry (fun _ _ _ => []) [[1]]).1)
      rfl

end Hypha
